import Mathlib

/-!
Verification of the revokr CRL tool against its specification.

The development shallowly embeds the Go sources at the byte and string level:
byte strings are lists of natural numbers below 256, Go strings are lists of
characters, fallible operations return Option or Except. Definitions mirror
the corresponding Go functions; definitions that stand for behavior of the Go
standard library (the DER encoder inside x509.CreateRevocationList, the shape
of values returned by the Public method of a crypto.Signer) are documented as
such where they are introduced.
-/

namespace Revokr

/-! ## DER building blocks

The Go package encoding/asn1 serializes and parses tag-length-value elements.
We model the byte-level encoding and the parser checks performed by the Go
function parseTagAndLength. -/

/-- Big-endian base-256 digits of a natural number (single zero digit for zero,
no leading zero digit otherwise). -/
def natToBE (n : Nat) : List Nat :=
  if n < 256 then [n] else natToBE (n / 256) ++ [n % 256]
termination_by n
decreasing_by exact Nat.div_lt_self (by omega) (by omega)

/-- DER length octets: short form below 128, otherwise long form with a count
octet followed by the big-endian value. -/
def derLen (n : Nat) : List Nat :=
  if n < 128 then [n] else (128 + (natToBE n).length) :: natToBE n

/-- One DER element: a single tag octet, the length octets, and the content. -/
def encodeTLV (t : Nat) (c : List Nat) : List Nat :=
  t :: derLen c.length ++ c

/-- The accumulator loop of the long-form length parser in the Go function
parseTagAndLength: reads k octets big-endian, rejecting values at or above
2 ^ 23 and superfluous leading zero octets. -/
def readBE : Nat → Nat → List Nat → Option (Nat × List Nat)
  | 0, acc, l => some (acc, l)
  | _ + 1, _, [] => none
  | k + 1, acc, b :: bs =>
    if 2 ^ 23 ≤ acc then none
    else if acc * 256 + b = 0 then none
    else readBE k (acc * 256 + b) bs

/-- DER length parser as in the Go function parseTagAndLength: short form, or
long form with minimality checks; the indefinite form (0x80) is rejected. -/
def parseLen : List Nat → Option (Nat × List Nat)
  | [] => none
  | b :: rest =>
    if b < 128 then some (b, rest)
    else if b = 128 then none
    else
      match readBE (b - 128) 0 rest with
      | none => none
      | some (n, rest2) => if n < 128 then none else some (n, rest2)

/-- Parses one DER element, returning the tag octet, the content octets and the
remaining input. Multi-octet (high) tag numbers are not used by this program
and are rejected by the model. -/
def parseTLV : List Nat → Option (Nat × List Nat × List Nat)
  | [] => none
  | t :: rest =>
    if t % 32 = 31 then none
    else
      match parseLen rest with
      | none => none
      | some (n, rest2) =>
        if rest2.length < n then none else some (t, rest2.take n, rest2.drop n)

theorem natToBE_ne_nil (n : Nat) : natToBE n ≠ [] := by
  unfold natToBE
  split <;> simp

theorem readBE_one (acc b : Nat) (s : List Nat) (h1 : ¬ 2 ^ 23 ≤ acc)
    (h2 : ¬ acc * 256 + b = 0) : readBE 1 acc (b :: s) = some (acc * 256 + b, s) := by
  simp only [readBE, if_neg h1, if_neg h2]

theorem readBE_add (k1 k2 acc : Nat) (l : List Nat) :
    readBE (k1 + k2) acc l =
      match readBE k1 acc l with
      | some (a, r) => readBE k2 a r
      | none => none := by
  induction k1 generalizing acc l with
  | zero => simp [readBE]
  | succ k ih =>
    have harr : k + 1 + k2 = (k + k2) + 1 := by omega
    rw [harr]
    cases l with
    | nil => simp [readBE]
    | cons b bs =>
      simp only [readBE]
      by_cases h1 : 2 ^ 23 ≤ acc
      · simp only [if_pos h1]
      · simp only [if_neg h1]
        by_cases h2 : acc * 256 + b = 0
        · simp only [if_pos h2]
        · simp only [if_neg h2]
          exact ih _ _

theorem readBE_natToBE (n : Nat) (h1 : 1 ≤ n) (h2 : n < 2 ^ 23) (s : List Nat) :
    readBE (natToBE n).length 0 (natToBE n ++ s) = some (n, s) := by
  induction n using natToBE.induct generalizing s with
  | case1 n hlt =>
    rw [natToBE, if_pos hlt]
    have h0 : ¬ 2 ^ 23 ≤ 0 := by omega
    have hz : ¬ 0 * 256 + n = 0 := by omega
    simp only [List.length_singleton, List.singleton_append]
    rw [readBE_one 0 n s h0 hz]
    simp
  | case2 n hge ih =>
    rw [natToBE, if_neg hge]
    have hdiv1 : 1 ≤ n / 256 := by omega
    have hdiv2 : n / 256 < 2 ^ 23 := by omega
    have hlen : (natToBE (n / 256) ++ [n % 256]).length = (natToBE (n / 256)).length + 1 := by
      simp
    rw [hlen, List.append_assoc, readBE_add, ih hdiv1 hdiv2]
    have hnd : ¬ 2 ^ 23 ≤ n / 256 := by omega
    have hnz : ¬ n / 256 * 256 + n % 256 = 0 := by omega
    have hrec : n / 256 * 256 + n % 256 = n := by omega
    simp only [List.singleton_append]
    rw [readBE_one _ _ _ hnd hnz, hrec]

theorem parseLen_derLen (n : Nat) (h : n < 2 ^ 23) (s : List Nat) :
    parseLen (derLen n ++ s) = some (n, s) := by
  by_cases h1 : n < 128
  · simp [derLen, parseLen, h1]
  · have hlen : 1 ≤ (natToBE n).length := List.length_pos.mpr (natToBE_ne_nil n)
    rw [derLen, if_neg h1, List.cons_append, parseLen]
    rw [if_neg (by omega), if_neg (by omega)]
    have hsub : 128 + (natToBE n).length - 128 = (natToBE n).length := by omega
    rw [hsub, readBE_natToBE n (by omega) h s]
    simp [if_neg h1]

theorem take_len_append {α : Type} (l1 l2 : List α) : (l1 ++ l2).take l1.length = l1 := by
  induction l1 with
  | nil => simp
  | cons a t ih => simp [ih]

theorem drop_len_append {α : Type} (l1 l2 : List α) : (l1 ++ l2).drop l1.length = l2 := by
  induction l1 with
  | nil => simp
  | cons a t ih => simp [ih]

theorem parseTLV_encodeTLV (t : Nat) (c s : List Nat) (ht : ¬ t % 32 = 31)
    (hc : c.length < 2 ^ 23) : parseTLV (encodeTLV t c ++ s) = some (t, c, s) := by
  have hsplit : encodeTLV t c ++ s = t :: (derLen c.length ++ (c ++ s)) := by
    simp [encodeTLV]
  rw [hsplit]
  simp only [parseTLV]
  rw [if_neg ht, parseLen_derLen c.length hc (c ++ s)]
  have hlen : ¬ (c ++ s).length < c.length := by simp
  simp only [if_neg hlen, take_len_append, drop_len_append]

theorem natToBE_length_le (n k : Nat) (h : n < 256 ^ (k + 1)) :
    (natToBE n).length ≤ k + 1 := by
  induction n using natToBE.induct generalizing k with
  | case1 n hlt =>
    rw [natToBE, if_pos hlt]
    simp
  | case2 n hge ih =>
    rw [natToBE, if_neg hge]
    cases k with
    | zero =>
      exfalso
      simp at h
      omega
    | succ k2 =>
      have hdiv : n / 256 < 256 ^ (k2 + 1) := by
        have hmul : n < 256 ^ (k2 + 1) * 256 := by
          have : 256 ^ (k2 + 1 + 1) = 256 ^ (k2 + 1) * 256 := by ring
          omega
        omega
      have := ih k2 hdiv
      simp only [List.length_append, List.length_singleton]
      omega

theorem derLen_length_le (n : Nat) (h : n < 2 ^ 23) : (derLen n).length ≤ 4 := by
  by_cases h1 : n < 128
  · simp [derLen, h1]
  · rw [derLen, if_neg h1]
    have hb : n < 256 ^ (2 + 1) := by norm_num; omega
    have := natToBE_length_le n 2 hb
    simp only [List.length_cons]
    omega

theorem derLen_length_pos (n : Nat) : 1 ≤ (derLen n).length := by
  by_cases h1 : n < 128
  · simp [derLen, h1]
  · rw [derLen, if_neg h1]
    simp

theorem encodeTLV_length (t : Nat) (c : List Nat) :
    (encodeTLV t c).length = 1 + (derLen c.length).length + c.length := by
  simp [encodeTLV]
  omega

theorem encodeTLV_length_le (t : Nat) (c : List Nat) (h : c.length < 2 ^ 23) :
    (encodeTLV t c).length ≤ 5 + c.length := by
  have h1 := derLen_length_le c.length h
  have h2 := encodeTLV_length t c
  omega

theorem encodeTLV_length_pos (t : Nat) (c : List Nat) : 2 ≤ (encodeTLV t c).length := by
  have h1 := derLen_length_pos c.length
  have h2 := encodeTLV_length t c
  omega

theorem encodeTLV_ne_nil (t : Nat) (c : List Nat) : encodeTLV t c ≠ [] := by
  have := encodeTLV_length_pos t c
  intro hcon
  rw [hcon] at this
  simp at this

/-! ## Object identifiers and algorithm identifiers -/

/-- Base-128 digits, fuel-driven so that concrete values reduce in the
kernel; the fuel never runs out when it starts at the number itself. -/
def base128DigitsAux : Nat → Nat → List Nat
  | 0, n => [n % 128]
  | fuel + 1, n => if n < 128 then [n] else base128DigitsAux fuel (n / 128) ++ [n % 128]

/-- Base-128 digits of a natural number (most significant first). -/
def base128Digits (n : Nat) : List Nat :=
  base128DigitsAux n n

/-- DER subidentifier encoding: base-128 digits, every digit but the last with
the continuation bit set. -/
def encodeBase128 (n : Nat) : List Nat :=
  (base128Digits n).dropLast.map (· + 128) ++ [(base128Digits n).getLastD 0]

/-- DER content octets of an object identifier given as its arc list: the first
two arcs are merged, every arc is a base-128 subidentifier. -/
def encodeOID : List Nat → List Nat
  | a :: b :: rest => encodeBase128 (40 * a + b) ++ rest.foldr (fun x acc => encodeBase128 x ++ acc) []
  | _ => []

/-- Validity of object identifier content octets as checked by the Go
function parseObjectIdentifier: nonempty, each subidentifier is a run of
continuation octets followed by a terminating octet, and no subidentifier
starts with the octet 0x80. The boolean argument says whether the scan is at
the start of a subidentifier. -/
def validOIDFrom : Bool → List Nat → Bool
  | start, [] => start
  | start, b :: rest =>
    if start && b == 128 then false
    else if b < 128 then validOIDFrom true rest
    else validOIDFrom false rest

def validOIDContent (c : List Nat) : Bool :=
  !c.isEmpty && validOIDFrom true c

/-- An X.509 AlgorithmIdentifier as built by GetSignatureAlgAndHash in
pkg/util/certs.go: an object identifier arc list and whether the parameters
field is an explicit ASN.1 NULL (RSA) or absent (ECDSA). -/
structure AlgId where
  oid : List Nat
  nullParams : Bool
deriving DecidableEq, Repr

/-- DER encoding of an AlgorithmIdentifier, as produced both by the Go
standard library when it signs a revocation list and by asn1.Marshal on the
value returned by GetSignatureAlgAndHash: SEQUENCE of the OID and, when
present, a NULL parameters field. -/
def encodeAlgId (a : AlgId) : List Nat :=
  encodeTLV 48 (encodeTLV 6 (encodeOID a.oid) ++ (if a.nullParams then [5, 0] else []))

/-- The x509.SignatureAlgorithm values relevant to this program. The first six
constructors are the algorithms supported by GetSignatureAlgAndHash; the last
two stand for every other declared algorithm. -/
inductive SigAlg where
  | sha256WithRSA
  | ecdsaWithSHA256
  | sha384WithRSA
  | ecdsaWithSHA384
  | sha512WithRSA
  | ecdsaWithSHA512
  | pureEd25519
  | otherAlg
deriving DecidableEq, Repr

/-- The hash algorithms returned by GetSignatureAlgAndHash. -/
inductive HashAlg where
  | sha256
  | sha384
  | sha512
deriving DecidableEq, Repr

/-- Output size in bytes of each hash algorithm. -/
def HashAlg.digestLen : HashAlg → Nat
  | .sha256 => 32
  | .sha384 => 48
  | .sha512 => 64

/-- Models GetSignatureAlgAndHash in pkg/util/certs.go: maps the declared
signature algorithm of the issuer certificate to the AlgorithmIdentifier used
for the assembled CRL and the hash function for the TBS digest; none models
the unsupported-signature-algorithm error. -/
def GetSignatureAlgAndHash : SigAlg → Option (AlgId × HashAlg)
  | .sha256WithRSA => some (⟨[1, 2, 840, 113549, 1, 1, 11], true⟩, .sha256)
  | .ecdsaWithSHA256 => some (⟨[1, 2, 840, 10045, 4, 3, 2], false⟩, .sha256)
  | .sha384WithRSA => some (⟨[1, 2, 840, 113549, 1, 1, 12], true⟩, .sha384)
  | .ecdsaWithSHA384 => some (⟨[1, 2, 840, 10045, 4, 3, 3], false⟩, .sha384)
  | .sha512WithRSA => some (⟨[1, 2, 840, 113549, 1, 1, 13], true⟩, .sha512)
  | .ecdsaWithSHA512 => some (⟨[1, 2, 840, 10045, 4, 3, 4], false⟩, .sha512)
  | .pureEd25519 => none
  | .otherAlg => none

/-- Modelled from the Go standard library (crypto/x509 signingParamsForKey):
the AlgorithmIdentifier the library itself places in a revocation list signed
with the given template signature algorithm. On the six algorithms supported
by this program it produces the same identifiers as GetSignatureAlgAndHash;
that agreement is what theorem stdSigningAlgId_eq below checks. -/
def stdSigningAlgId : SigAlg → Option AlgId
  | .sha256WithRSA => some ⟨[1, 2, 840, 113549, 1, 1, 11], true⟩
  | .ecdsaWithSHA256 => some ⟨[1, 2, 840, 10045, 4, 3, 2], false⟩
  | .sha384WithRSA => some ⟨[1, 2, 840, 113549, 1, 1, 12], true⟩
  | .ecdsaWithSHA384 => some ⟨[1, 2, 840, 10045, 4, 3, 3], false⟩
  | .sha512WithRSA => some ⟨[1, 2, 840, 113549, 1, 1, 13], true⟩
  | .ecdsaWithSHA512 => some ⟨[1, 2, 840, 10045, 4, 3, 4], false⟩
  | .pureEd25519 => some ⟨[1, 3, 101, 112], false⟩
  | .otherAlg => none

theorem stdSigningAlgId_eq (a : SigAlg) (alg : AlgId) (h : HashAlg)
    (hget : GetSignatureAlgAndHash a = some (alg, h)) : stdSigningAlgId a = some alg := by
  cases a <;> simp_all [GetSignatureAlgAndHash, stdSigningAlgId]

/-! ## The signed CRL byte structure and TBS extraction -/

/-- Modelled from the Go standard library (crypto/x509.CreateRevocationList):
the final DER structure of a signed CRL is the SEQUENCE of the
TBSCertList bytes, the signature AlgorithmIdentifier, and the signature as a
BIT STRING with zero unused bits. -/
def certListBytes (alg : AlgId) (tbsFull sig : List Nat) : List Nat :=
  encodeTLV 48 (tbsFull ++ encodeAlgId alg ++ encodeTLV 3 (0 :: sig))

/-- Modelled from the Go standard library: x509.CreateRevocationList
deterministically encodes the template into TBSCertList bytes (quantified over
as tbsContent here, the content octets of the TBS SEQUENCE) and wraps them
with the signing algorithm identifier and the produced signature. Returns
none when the template signature algorithm is unsupported by the library. -/
def createRevocationListBytes (a : SigAlg) (tbsContent sig : List Nat) : Option (List Nat) :=
  (stdSigningAlgId a).map (fun alg => certListBytes alg (encodeTLV 48 tbsContent) sig)

/-- BIT STRING content validity as checked by the Go asn1 parser: nonempty,
padding count at most 7, zero padding for an empty value, and zero padding
bits in the last octet. -/
def bitStringOk : List Nat → Bool
  | [] => false
  | pad :: data =>
    if 7 < pad then false
    else if data.isEmpty && !(pad == 0) then false
    else (pad :: data).getLastD 0 % 2 ^ pad == 0

/-- AlgorithmIdentifier content validity as parsed by asn1.Unmarshal into
pkix.AlgorithmIdentifier: an OBJECT IDENTIFIER element followed by either
nothing or a single parameters element. -/
def algIdContentOk (c : List Nat) : Bool :=
  match parseTLV c with
  | some (t, oidc, rest) =>
    t == 6 && validOIDContent oidc &&
      (rest.isEmpty ||
        (match parseTLV rest with
         | some (_, _, r2) => r2.isEmpty
         | none => false))
  | none => false

/-- Models ExtractTBS in pkg/util/certs.go: asn1.Unmarshal of the CRL bytes
into the RawCRL structure (SEQUENCE of a RawValue, an AlgorithmIdentifier and
a BIT STRING), returning the full bytes of the TBS element; fails when the
structure does not parse or the TBS bytes are empty. Trailing bytes after a
parsed element are ignored as by asn1.Unmarshal. -/
def ExtractTBS (crl : List Nat) : Except String (List Nat) :=
  match parseTLV crl with
  | none => .error "failed to unmarshal CRL for TBS extraction"
  | some (t0, content, _) =>
    if ¬ t0 = 48 then .error "failed to unmarshal CRL for TBS extraction"
    else
      match parseTLV content with
      | none => .error "failed to unmarshal CRL for TBS extraction"
      | some (_, _, rest1) =>
        let tbsFull := content.take (content.length - rest1.length)
        match parseTLV rest1 with
        | none => .error "failed to unmarshal CRL for TBS extraction"
        | some (t2, algContent, rest2) =>
          if ¬ (t2 = 48 ∧ algIdContentOk algContent) then
            .error "failed to unmarshal CRL for TBS extraction"
          else
            match parseTLV rest2 with
            | none => .error "failed to unmarshal CRL for TBS extraction"
            | some (t3, bsContent, _) =>
              if ¬ (t3 = 3 ∧ bitStringOk bsContent) then
                .error "failed to unmarshal CRL for TBS extraction"
              else if tbsFull.length = 0 then .error "no TBS data found in CRL"
              else .ok tbsFull

/-- Models ParseTBSCRL in pkg/util/files.go: asn1.Unmarshal of the TBS file
bytes into a RawValue, whose full bytes are the parsed element verbatim. -/
def ParseTBSCRL (bytes : List Nat) : Option (List Nat) :=
  match parseTLV bytes with
  | none => none
  | some (_, _, rest) => some (bytes.take (bytes.length - rest.length))

/-- Marshalling of an asn1.RawValue taken from a parsed TBS file: when the
full bytes are present they are emitted verbatim; marshalling the zero
RawValue produces the two octets of an empty tag-zero element. -/
def marshalRawValueFull (v : List Nat) : List Nat :=
  if v.isEmpty then [0, 0] else v

/-- Models AssembleCRL in pkg/crl (the four-argument version called by the
assemble command): looks up the signature algorithm of the issuer
certificate, rejects empty signature bytes, and marshals the RawCRL structure
made of the TBS raw value, the algorithm identifier, and the signature as a
BIT STRING. The returned bytes are what WriteCRL then writes. -/
def AssembleCRL (a : SigAlg) (tbsFull signature : List Nat) : Except String (List Nat) :=
  match GetSignatureAlgAndHash a with
  | none => .error "failed to get signature algorithm"
  | some (sigAlgo, _) =>
    if signature.length = 0 then .error "signature data is empty"
    else .ok (encodeTLV 48 (marshalRawValueFull tbsFull ++ encodeAlgId sigAlgo ++ encodeTLV 3 (0 :: signature)))

/-- Models the TBS branch of CreateCRL in pkg/crl: the revocation list is
created with a freshly generated dummy signer of the same key family (hence
the same signing algorithm identifier) and the TBS portion is extracted from
the resulting bytes. -/
def CreateCRLTBS (a : SigAlg) (tbsContent dummySig : List Nat) : Except String (List Nat) :=
  match createRevocationListBytes a tbsContent dummySig with
  | none => .error "failed to create CRL"
  | some crl => ExtractTBS crl

/-- Models the signed branch of CreateCRL in pkg/crl: the bytes returned by
x509.CreateRevocationList are passed to WriteCRL unchanged. -/
def CreateCRLSigned (a : SigAlg) (tbsContent sig : List Nat) : Option (List Nat) :=
  createRevocationListBytes a tbsContent sig

/-- Models the assemble command pipeline in the command-line front end: the
TBS file bytes are parsed with ParseTBSCRL and the resulting raw value is
passed to AssembleCRL together with the signature bytes. -/
def cmdAssembleBytes (a : SigAlg) (tbsFileBytes sig : List Nat) : Except String (List Nat) :=
  match ParseTBSCRL tbsFileBytes with
  | none => .error "failed to parse TBS CRL"
  | some tbsFull => AssembleCRL a tbsFull sig

theorem parseTLV_encodeTLV_nil (t : Nat) (c : List Nat) (ht : ¬ t % 32 = 31)
    (hc : c.length < 2 ^ 23) : parseTLV (encodeTLV t c) = some (t, c, []) := by
  have h := parseTLV_encodeTLV t c [] ht hc
  rwa [List.append_nil] at h

theorem bitStringOk_zero (sig : List Nat) : bitStringOk (0 :: sig) = true := by
  simp [bitStringOk, Nat.mod_one]

theorem algIdContentOk_encode (alg : AlgId)
    (h1 : validOIDContent (encodeOID alg.oid) = true)
    (h2 : (encodeOID alg.oid).length < 2 ^ 23) :
    algIdContentOk (encodeTLV 6 (encodeOID alg.oid) ++
      (if alg.nullParams then [5, 0] else [])) = true := by
  cases hnp : alg.nullParams with
  | true =>
    rw [if_pos rfl]
    rw [algIdContentOk, parseTLV_encodeTLV 6 (encodeOID alg.oid) [5, 0] (by omega) h2]
    simp only [h1]
    rfl
  | false =>
    rw [if_neg (by simp)]
    rw [algIdContentOk, parseTLV_encodeTLV 6 (encodeOID alg.oid) [] (by omega) h2]
    simp [h1]

theorem encodeAlgId_inner_len (alg : AlgId) (h2 : (encodeOID alg.oid).length ≤ 64) :
    (encodeTLV 6 (encodeOID alg.oid) ++ (if alg.nullParams then [5, 0] else [])).length ≤ 71 := by
  have hb := encodeTLV_length_le 6 (encodeOID alg.oid) (by omega)
  cases alg.nullParams <;> simp_all <;> omega

theorem encodeAlgId_length_le (alg : AlgId) (h2 : (encodeOID alg.oid).length ≤ 64) :
    (encodeAlgId alg).length ≤ 76 := by
  have hi := encodeAlgId_inner_len alg h2
  have := encodeTLV_length_le 48
    (encodeTLV 6 (encodeOID alg.oid) ++ (if alg.nullParams then [5, 0] else [])) (by omega)
  rw [encodeAlgId]
  omega

/-- Extracting the TBS from a signed revocation list built over the given TBS
content recovers the TBS element bytes verbatim. -/
theorem ExtractTBS_certListBytes (alg : AlgId) (t sig : List Nat)
    (hoid : validOIDContent (encodeOID alg.oid) = true)
    (hoidlen : (encodeOID alg.oid).length ≤ 64)
    (ht : t.length < 2 ^ 20) (hsig : sig.length < 2 ^ 20) :
    ExtractTBS (certListBytes alg (encodeTLV 48 t) sig) = .ok (encodeTLV 48 t) := by
  have htbslen : (encodeTLV 48 t).length ≤ 5 + t.length := encodeTLV_length_le 48 t (by omega)
  have halglen : (encodeAlgId alg).length ≤ 76 := encodeAlgId_length_le alg hoidlen
  have hsiglen : (encodeTLV 3 (0 :: sig)).length ≤ 5 + (0 :: sig).length :=
    encodeTLV_length_le 3 (0 :: sig) (by simp; omega)
  have hcontentlen :
      (encodeTLV 48 t ++ encodeAlgId alg ++ encodeTLV 3 (0 :: sig)).length < 2 ^ 23 := by
    simp only [List.length_append, List.length_cons] at *
    omega
  have hp0 : parseTLV (certListBytes alg (encodeTLV 48 t) sig) =
      some (48, encodeTLV 48 t ++ encodeAlgId alg ++ encodeTLV 3 (0 :: sig), []) := by
    rw [certListBytes]
    exact parseTLV_encodeTLV_nil 48 _ (by omega) hcontentlen
  have hassoc : encodeTLV 48 t ++ encodeAlgId alg ++ encodeTLV 3 (0 :: sig) =
      encodeTLV 48 t ++ (encodeAlgId alg ++ encodeTLV 3 (0 :: sig)) := by
    rw [List.append_assoc]
  have hp1 : parseTLV (encodeTLV 48 t ++ encodeAlgId alg ++ encodeTLV 3 (0 :: sig)) =
      some (48, t, encodeAlgId alg ++ encodeTLV 3 (0 :: sig)) := by
    rw [hassoc]
    exact parseTLV_encodeTLV 48 t _ (by omega) (by omega)
  have hp2 : parseTLV (encodeAlgId alg ++ encodeTLV 3 (0 :: sig)) =
      some (48, encodeTLV 6 (encodeOID alg.oid) ++ (if alg.nullParams then [5, 0] else []),
        encodeTLV 3 (0 :: sig)) := by
    rw [encodeAlgId]
    exact parseTLV_encodeTLV 48 _ _ (by omega)
      (by have := encodeAlgId_inner_len alg hoidlen; omega)
  have hp3 : parseTLV (encodeTLV 3 (0 :: sig)) = some (3, 0 :: sig, []) :=
    parseTLV_encodeTLV_nil 3 (0 :: sig) (by omega) (by simp; omega)
  have htake : (encodeTLV 48 t ++ encodeAlgId alg ++ encodeTLV 3 (0 :: sig)).take
      ((encodeTLV 48 t ++ encodeAlgId alg ++ encodeTLV 3 (0 :: sig)).length -
        (encodeAlgId alg ++ encodeTLV 3 (0 :: sig)).length) = encodeTLV 48 t := by
    rw [hassoc]
    have hlen : (encodeTLV 48 t ++ (encodeAlgId alg ++ encodeTLV 3 (0 :: sig))).length -
        (encodeAlgId alg ++ encodeTLV 3 (0 :: sig)).length = (encodeTLV 48 t).length := by
      simp
    rw [hlen, take_len_append]
  have hne : ¬ (encodeTLV 48 t).length = 0 := by
    have := encodeTLV_length_pos 48 t
    omega
  rw [ExtractTBS, hp0]
  simp only [hp1, hp2, hp3, htake]
  rw [if_neg (by simp)]
  have hac := algIdContentOk_encode alg hoid (by omega)
  rw [if_neg (by simp [hac])]
  rw [if_neg (by simp [bitStringOk_zero])]
  rw [if_neg hne]

theorem ParseTBSCRL_encodeTLV (t : Nat) (c : List Nat) (ht : ¬ t % 32 = 31)
    (hc : c.length < 2 ^ 23) : ParseTBSCRL (encodeTLV t c) = some (encodeTLV t c) := by
  rw [ParseTBSCRL, parseTLV_encodeTLV_nil t c ht hc]
  simp

theorem supported_oid_ok (a : SigAlg) (alg : AlgId) (h : HashAlg)
    (hget : GetSignatureAlgAndHash a = some (alg, h)) :
    validOIDContent (encodeOID alg.oid) = true ∧ (encodeOID alg.oid).length ≤ 64 := by
  cases a <;> first
    | exact Option.noConfusion hget
    | (simp only [GetSignatureAlgAndHash, Option.some.injEq, Prod.mk.injEq] at hget
       obtain ⟨h1, h2⟩ := hget
       subst h1
       decide)

theorem AssembleCRL_ok (a : SigAlg) (alg : AlgId) (h : HashAlg)
    (hget : GetSignatureAlgAndHash a = some (alg, h)) (tbsFull sig : List Nat)
    (htbs : tbsFull ≠ []) (hsig : sig ≠ []) :
    AssembleCRL a tbsFull sig = .ok (certListBytes alg tbsFull sig) := by
  simp only [AssembleCRL, hget]
  have hlen : ¬ sig.length = 0 := by
    intro hcon
    exact hsig (List.length_eq_zero.mp hcon)
  rw [if_neg hlen, marshalRawValueFull, if_neg (by simp [htbs])]
  rfl

/-- C1: split-signing round trip. For every supported issuer signature
algorithm and every build input (quantified through the deterministic TBS
content produced by the encoder), the TBS-mode build emits the TBS element,
and assembling it with given signature bytes is byte-identical to the
directly signed CRL produced with the same signature bytes. -/
theorem C1_split_signing_round_trip (a : SigAlg) (alg : AlgId) (h : HashAlg)
    (hget : GetSignatureAlgAndHash a = some (alg, h))
    (tbsContent dummySig sig : List Nat)
    (hsig : sig ≠ []) (ht : tbsContent.length < 2 ^ 20)
    (hd : dummySig.length < 2 ^ 20) :
    ∃ tbsOut signedOut,
      CreateCRLTBS a tbsContent dummySig = .ok tbsOut ∧
      CreateCRLSigned a tbsContent sig = some signedOut ∧
      cmdAssembleBytes a tbsOut sig = .ok signedOut := by
  obtain ⟨hoid, hoidlen⟩ := supported_oid_ok a alg h hget
  have hstd := stdSigningAlgId_eq a alg h hget
  refine ⟨encodeTLV 48 tbsContent, certListBytes alg (encodeTLV 48 tbsContent) sig, ?_, ?_, ?_⟩
  · simp only [CreateCRLTBS, createRevocationListBytes, hstd, Option.map_some']
    exact ExtractTBS_certListBytes alg tbsContent dummySig hoid hoidlen ht hd
  · simp only [CreateCRLSigned, createRevocationListBytes, hstd, Option.map_some']
  · have htlen : (encodeTLV 48 tbsContent).length < 2 ^ 23 := by
      have := encodeTLV_length_le 48 tbsContent (by omega)
      omega
    rw [cmdAssembleBytes, ParseTBSCRL_encodeTLV 48 tbsContent (by omega) (by omega)]
    exact AssembleCRL_ok a alg h hget (encodeTLV 48 tbsContent) sig
      (encodeTLV_ne_nil 48 tbsContent) hsig

/-- Witness for C1 at a concrete input. -/
theorem C1_split_signing_round_trip_witness :
    ∃ tbsOut signedOut,
      CreateCRLTBS .sha256WithRSA [1, 2, 3] [9] = .ok tbsOut ∧
      CreateCRLSigned .sha256WithRSA [1, 2, 3] [4, 5] = some signedOut ∧
      cmdAssembleBytes .sha256WithRSA tbsOut [4, 5] = .ok signedOut :=
  C1_split_signing_round_trip .sha256WithRSA ⟨[1, 2, 840, 113549, 1, 1, 11], true⟩ .sha256
    rfl [1, 2, 3] [9] [4, 5] (by decide) (by norm_num) (by norm_num)

/-- C8 counterexample: AssembleCRL called with an empty TBS raw value and a
nonempty signature does not fail; the function never checks the TBS body for
emptiness, so the claimed precondition failure does not occur. -/
theorem C8_counterexample_empty_tbs_accepted :
    (AssembleCRL SigAlg.sha256WithRSA [] [1]).isOk = true := by decide

/-- C8 amended: for a supported issuer signature algorithm, AssembleCRL
succeeds exactly when the signature bytes are nonempty; the emptiness of the
TBS body is not checked by AssembleCRL (an empty TBS file is instead rejected
earlier, when ParseTBSCRL fails to unmarshal it). -/
theorem C8_assemble_preconditions_amended (a : SigAlg) (tbs sig : List Nat)
    (h : (GetSignatureAlgAndHash a).isSome = true) :
    (AssembleCRL a tbs sig).isOk = true ↔ sig ≠ [] := by
  match hg : GetSignatureAlgAndHash a with
  | none => rw [hg] at h; simp at h
  | some (alg, hh) =>
    cases sig with
    | nil => simp [AssembleCRL, hg, Except.isOk, Except.toBool]
    | cons c cs => simp [AssembleCRL, hg, Except.isOk, Except.toBool]

/-- Witness for the amended C8 statement at a concrete input. -/
theorem C8_assemble_preconditions_witness :
    (AssembleCRL SigAlg.sha256WithRSA [7, 7] [1]).isOk = true :=
  (C8_assemble_preconditions_amended SigAlg.sha256WithRSA [7, 7] [1] (by decide)).mpr
    (by decide)

/-! ## The TBS digest (claim C2)

GetSignatureAlgAndHash returns a freshly created hash.Hash. The Go Sum method
of hash.Hash appends the digest of the bytes written so far to its argument;
CreateCRL calls h.Sum(crl) without ever writing to h. -/

/-- Models the Sum method of the Go hash.Hash interface: given the digest
function and the bytes written so far, Sum appends the digest of the written
bytes to its argument. -/
def goHashSum (hf : List Nat → List Nat) (written b : List Nat) : List Nat :=
  b ++ hf written

/-- Models the digest computation of the TBS branch of CreateCRL in pkg/crl
(the statement digest := h.Sum(crl)): the hash state is fresh, nothing has
been written to it, and the extracted TBS bytes are passed as the argument of
Sum. The result is what WriteDigest then writes. -/
def crlDigestBytes (hf : List Nat → List Nat) (tbsBytes : List Nat) : List Nat :=
  goHashSum hf [] tbsBytes

/-- C2 (code is wrong): for every issuer algorithm supported by
GetSignatureAlgAndHash and every digest function of the announced output
size, the bytes CreateCRL writes to the digest destination are the TBS bytes
with the digest of the empty byte string appended, which differs from the
digest of the TBS bytes whenever the TBS is nonempty. -/
theorem C2_digest_is_not_hash_of_tbs (a : SigAlg) (alg : AlgId) (h : HashAlg)
    (_hget : GetSignatureAlgAndHash a = some (alg, h))
    (hf : List Nat → List Nat) (hlen : ∀ x, (hf x).length = h.digestLen)
    (tbs : List Nat) (hne : tbs ≠ []) :
    crlDigestBytes hf tbs = tbs ++ hf [] ∧ crlDigestBytes hf tbs ≠ hf tbs := by
  constructor
  · rfl
  · intro hcon
    have h1 : (crlDigestBytes hf tbs).length = tbs.length + (hf []).length := by
      simp [crlDigestBytes, goHashSum]
    rw [hcon, hlen tbs, hlen []] at h1
    have h2 : tbs.length = 0 := by omega
    exact hne (List.length_eq_zero.mp h2)

/-- Witness for C2 at a concrete input: a stand-in digest function with the
32-byte output size of SHA-256 and the one-byte TBS [1]. -/
theorem C2_digest_is_not_hash_of_tbs_witness :
    crlDigestBytes (fun _ : List Nat => List.replicate 32 0) [1] =
        [1] ++ (fun _ : List Nat => List.replicate 32 0) [] ∧
      crlDigestBytes (fun _ : List Nat => List.replicate 32 0) [1] ≠
        (fun _ : List Nat => List.replicate 32 0) [1] :=
  C2_digest_is_not_hash_of_tbs .sha256WithRSA ⟨[1, 2, 840, 113549, 1, 1, 11], true⟩ .sha256
    rfl (fun _ : List Nat => List.replicate 32 0)
    (fun _ => by simp [HashAlg.digestLen]) [1] (by decide)

/-! ## Key and certificate matching (claim C3) -/

/-- A Go crypto.PublicKey value together with its dynamic type, as it occurs
in this program: the x509 package and the Public methods of the supported
private keys produce pointers for RSA and ECDSA keys, while Ed25519 public
keys occur as the value type ed25519.PublicKey. A pointer to an
ed25519.PublicKey is a separate dynamic type. -/
inductive GoPubKey where
  | rsaPtr (n e : Int)
  | ecdsaPtr (x y : Int)
  | ed25519Val (b : List Nat)
  | ed25519Ptr (b : List Nat)
  | otherKey
deriving DecidableEq, Repr

/-- The private signers this program can load. -/
inductive PrivSigner where
  | rsaKey (n e : Int)
  | ecdsaKey (x y : Int)
  | ed25519Key (b : List Nat)
deriving DecidableEq, Repr

/-- Modelled from the Go standard library: the Public method returns a
pointer for rsa.PrivateKey and ecdsa.PrivateKey, and the value type
ed25519.PublicKey (not a pointer) for ed25519.PrivateKey. -/
def PrivSigner.publicKey : PrivSigner → GoPubKey
  | .rsaKey n e => .rsaPtr n e
  | .ecdsaKey x y => .ecdsaPtr x y
  | .ed25519Key b => .ed25519Val b

/-- Models VerifyCrtKeyMatch in pkg/util/files.go: a type switch on the
dynamic type of key.Public() with cases for pointer-to-RSA, pointer-to-ECDSA
and pointer-to-Ed25519 public keys, comparing the algorithm-specific fields
against the certificate public key, with every other dynamic type reported as
unsupported. -/
def VerifyCrtKeyMatch (crtPub : GoPubKey) (key : PrivSigner) : Except String Unit :=
  match key.publicKey with
  | .rsaPtr n e =>
    match crtPub with
    | .rsaPtr n2 e2 =>
      if n = n2 ∧ e = e2 then .ok ()
      else .error "RSA public key in certificate does not match private key"
    | _ => .error "certificate public key is not RSA"
  | .ecdsaPtr x y =>
    match crtPub with
    | .ecdsaPtr x2 y2 =>
      if x = x2 ∧ y = y2 then .ok ()
      else .error "ECDSA public key in certificate does not match private key"
    | _ => .error "certificate public key is not ECDSA"
  | .ed25519Ptr b =>
    match crtPub with
    | .ed25519Val b2 =>
      if b = b2 then .ok ()
      else .error "Ed25519 public key in certificate does not match private key"
    | _ => .error "certificate public key is not Ed25519"
  | _ => .error "unsupported public key type for verification"

/-- C3 (code is wrong on Ed25519): matching RSA and ECDSA keys pass the
check and an RSA mismatch is rejected, but a matching Ed25519 key is reported
as an unsupported key type, because the type switch matches the pointer type
while the Public method of an Ed25519 key returns the value type. -/
theorem C3_key_match_check :
    (∀ n e : Int, VerifyCrtKeyMatch (.rsaPtr n e) (.rsaKey n e) = .ok ()) ∧
    (∀ x y : Int, VerifyCrtKeyMatch (.ecdsaPtr x y) (.ecdsaKey x y) = .ok ()) ∧
    VerifyCrtKeyMatch (.rsaPtr 15 3) (.rsaKey 21 3) =
      .error "RSA public key in certificate does not match private key" ∧
    (∀ b : List Nat, VerifyCrtKeyMatch (.ed25519Val b) (.ed25519Key b) =
      .error "unsupported public key type for verification") := by
  refine ⟨?_, ?_, ?_, ?_⟩
  · intro n e
    simp [VerifyCrtKeyMatch, PrivSigner.publicKey]
  · intro x y
    simp [VerifyCrtKeyMatch, PrivSigner.publicKey]
  · simp [VerifyCrtKeyMatch, PrivSigner.publicKey]
  · intro b
    simp [VerifyCrtKeyMatch, PrivSigner.publicKey]

/-! ## Serial canonicalization and the entry extractor (claims C4, C5, C10) -/

/-- Lowercase hexadecimal digit character. -/
def hexDigitChar (n : Nat) : Char :=
  if n < 10 then Char.ofNat (48 + n) else Char.ofNat (87 + n)

/-- Hex digits of a natural number, fuel-driven so that concrete values reduce
in the kernel; empty for zero. -/
def natHexAux : Nat → Nat → List Char
  | 0, _ => []
  | fuel + 1, n => if n = 0 then [] else natHexAux fuel (n / 16) ++ [hexDigitChar (n % 16)]

/-- Lowercase hexadecimal rendering of a natural number without leading
zeros; zero renders as the single digit 0. -/
def natHex (n : Nat) : List Char :=
  if n = 0 then ['0'] else natHexAux n n

/-- Models the Text method of big.Int with base 16, used as the canonical
serial key: lowercase hex without leading zeros, minus sign for negatives. -/
def bigIntText16 (n : Int) : List Char :=
  if n < 0 then '-' :: natHex n.natAbs else natHex n.natAbs

/-- One revocation entry recovered from a prior CRL: serial number and an
opaque revocation time. -/
structure RevEntry where
  serial : Int
  time : Nat
deriving DecidableEq, Repr

/-- A successfully loaded and parsed prior CRL: its CRL number and its
revocation entries. The model assumes the number extension is present, as
the Go code dereferences it unconditionally. -/
structure ParsedCRL where
  number : Int
  entries : List RevEntry
deriving DecidableEq, Repr

/-- The inner loop of ExtractRevocationEntries in pkg/crl/extract.go over the
entries of one parsed CRL: entries whose canonical serial is already in the
seen set are skipped, others are appended and their serial marked seen. -/
def addEntries : List (List Char) → List RevEntry → List RevEntry → List RevEntry × List (List Char)
  | seen, acc, [] => (acc, seen)
  | seen, acc, e :: es =>
    if bigIntText16 e.serial ∈ seen then addEntries seen acc es
    else addEntries (bigIntText16 e.serial :: seen) (acc ++ [e]) es

/-- The outer loop of ExtractRevocationEntries over the sources: a source
that failed to load or parse (none) is skipped, a parsed source first updates
the highest CRL number and then contributes entries. -/
def extractGo : List (List Char) → Int → List RevEntry → List (Option ParsedCRL) → Int × List RevEntry
  | _, num, acc, [] => (num, acc)
  | seen, num, acc, none :: rest => extractGo seen num acc rest
  | seen, num, acc, some c :: rest =>
    extractGo (addEntries seen acc c.entries).2
      (if c.number > num then c.number else num)
      (addEntries seen acc c.entries).1 rest

/-- Models ExtractRevocationEntries in pkg/crl/extract.go: the seen set is
seeded with the ignore serials, the number accumulator starts at -1. -/
def ExtractRevocationEntries (ignore : List (List Char))
    (sources : List (Option ParsedCRL)) : Int × List RevEntry :=
  extractGo ignore (-1) [] sources

/-- Specification-side filter: keep an entry exactly when its canonical
serial is neither banned nor equal to the canonical serial of an earlier kept
entry (first occurrence wins). -/
def firstOcc : List (List Char) → List RevEntry → List RevEntry
  | _, [] => []
  | banned, e :: es =>
    if bigIntText16 e.serial ∈ banned then firstOcc banned es
    else e :: firstOcc (bigIntText16 e.serial :: banned) es

/-- Canonical serials of a list of entries. -/
def canons (l : List RevEntry) : List (List Char) :=
  l.map (fun e => bigIntText16 e.serial)

/-- All entries of the successfully parsed sources in source order. -/
def flatEntries : List (Option ParsedCRL) → List RevEntry
  | [] => []
  | none :: r => flatEntries r
  | some c :: r => c.entries ++ flatEntries r

/-- CRL numbers of the successfully parsed sources in source order. -/
def crlNumbers : List (Option ParsedCRL) → List Int
  | [] => []
  | none :: r => crlNumbers r
  | some c :: r => c.number :: crlNumbers r

theorem firstOcc_congr (b1 b2 : List (List Char)) (l : List RevEntry)
    (h : ∀ x, x ∈ b1 ↔ x ∈ b2) : firstOcc b1 l = firstOcc b2 l := by
  induction l generalizing b1 b2 with
  | nil => rfl
  | cons e es ih =>
    simp only [firstOcc]
    by_cases hm : bigIntText16 e.serial ∈ b1
    · rw [if_pos hm, if_pos ((h _).mp hm)]
      exact ih _ _ h
    · rw [if_neg hm, if_neg (fun hc => hm ((h _).mpr hc))]
      have hx : ∀ x, x ∈ bigIntText16 e.serial :: b1 ↔ x ∈ bigIntText16 e.serial :: b2 := by
        intro x
        simp [h x]
      rw [ih _ _ hx]

theorem addEntries_fst (seen : List (List Char)) (acc : List RevEntry) (es : List RevEntry) :
    (addEntries seen acc es).1 = acc ++ firstOcc seen es := by
  induction es generalizing seen acc with
  | nil => simp [addEntries, firstOcc]
  | cons e es ih =>
    simp only [addEntries, firstOcc]
    by_cases hm : bigIntText16 e.serial ∈ seen
    · rw [if_pos hm, if_pos hm]
      exact ih _ _
    · rw [if_neg hm, if_neg hm, ih]
      simp

theorem addEntries_snd_mem (seen : List (List Char)) (acc : List RevEntry)
    (es : List RevEntry) (x : List Char) :
    x ∈ (addEntries seen acc es).2 ↔ x ∈ seen ∨ x ∈ canons es := by
  induction es generalizing seen acc with
  | nil => simp [addEntries, canons]
  | cons e es ih =>
    simp only [addEntries, canons, List.map_cons, List.mem_cons]
    by_cases hm : bigIntText16 e.serial ∈ seen
    · rw [if_pos hm, ih]
      constructor
      · rintro (h | h)
        · exact Or.inl h
        · exact Or.inr (Or.inr h)
      · rintro (h | h | h)
        · exact Or.inl h
        · rw [h]
          exact Or.inl hm
        · exact Or.inr h
    · rw [if_neg hm, ih]
      simp only [List.mem_cons]
      tauto

theorem firstOcc_append_via (seen : List (List Char)) (acc : List RevEntry)
    (es l2 : List RevEntry) :
    firstOcc seen (es ++ l2) = firstOcc seen es ++ firstOcc (addEntries seen acc es).2 l2 := by
  induction es generalizing seen acc with
  | nil => simp [addEntries, firstOcc]
  | cons e es ih =>
    simp only [List.cons_append, firstOcc, addEntries]
    by_cases hm : bigIntText16 e.serial ∈ seen
    · rw [if_pos hm, if_pos hm, if_pos hm]
      exact ih _ _
    · rw [if_neg hm, if_neg hm, if_neg hm]
      simp only [List.append_eq]
      rw [ih _ (acc ++ [e])]
      simp

theorem extractGo_spec (seen : List (List Char)) (num : Int) (acc : List RevEntry)
    (sources : List (Option ParsedCRL)) :
    extractGo seen num acc sources =
      ((crlNumbers sources).foldl (fun a n => if n > a then n else a) num,
        acc ++ firstOcc seen (flatEntries sources)) := by
  induction sources generalizing seen num acc with
  | nil => simp [extractGo, crlNumbers, flatEntries, firstOcc]
  | cons o rest ih =>
    cases o with
    | none => simp [extractGo, crlNumbers, flatEntries, ih]
    | some c =>
      simp only [extractGo, crlNumbers, flatEntries, List.foldl_cons]
      rw [ih, addEntries_fst]
      rw [firstOcc_append_via seen acc c.entries (flatEntries rest)]
      simp [List.append_assoc]

theorem firstOcc_not_banned (banned : List (List Char)) (l : List RevEntry) :
    ∀ e ∈ firstOcc banned l, bigIntText16 e.serial ∉ banned := by
  induction l generalizing banned with
  | nil => simp [firstOcc]
  | cons e es ih =>
    simp only [firstOcc]
    by_cases hm : bigIntText16 e.serial ∈ banned
    · rw [if_pos hm]
      exact ih banned
    · rw [if_neg hm]
      intro x hx
      rcases List.mem_cons.mp hx with hx1 | hx2
      · rw [hx1]
        exact hm
      · intro hcon
        exact ih _ x hx2 (List.mem_cons_of_mem _ hcon)

theorem firstOcc_nodup (banned : List (List Char)) (l : List RevEntry) :
    ((firstOcc banned l).map (fun e => bigIntText16 e.serial)).Nodup := by
  induction l generalizing banned with
  | nil => simp [firstOcc]
  | cons e es ih =>
    simp only [firstOcc]
    by_cases hm : bigIntText16 e.serial ∈ banned
    · rw [if_pos hm]
      exact ih banned
    · rw [if_neg hm]
      simp only [List.map_cons, List.nodup_cons]
      refine ⟨?_, ih _⟩
      intro hcon
      rcases List.mem_map.mp hcon with ⟨e2, he2, heq⟩
      have := firstOcc_not_banned _ _ e2 he2
      rw [heq] at this
      exact this (List.mem_cons_self _ _)

/-- C4: for every ignore set and every sequence of prior-CRL sources, the
output of the Entry Extractor is exactly the first-occurrence filter of the
flattened entries: no output entry has a canonical serial in the ignore set,
among equal serials only the first occurrence in source order is kept, and
the output serials are duplicate-free. -/
theorem C4_extract_ignore_and_first_occurrence (ignore : List (List Char))
    (sources : List (Option ParsedCRL)) :
    (ExtractRevocationEntries ignore sources).2 = firstOcc ignore (flatEntries sources) ∧
    (∀ e ∈ (ExtractRevocationEntries ignore sources).2, bigIntText16 e.serial ∉ ignore) ∧
    ((ExtractRevocationEntries ignore sources).2.map (fun e => bigIntText16 e.serial)).Nodup := by
  have hmain : (ExtractRevocationEntries ignore sources).2 =
      firstOcc ignore (flatEntries sources) := by
    rw [ExtractRevocationEntries, extractGo_spec]
    simp
  refine ⟨hmain, ?_, ?_⟩
  · rw [hmain]
    exact firstOcc_not_banned ignore (flatEntries sources)
  · rw [hmain]
    exact firstOcc_nodup ignore (flatEntries sources)

/-- Witness for C4 at a concrete input: with ignore set containing the
canonical serial b (decimal 11) and one source carrying serials 10, 11 and a
second occurrence of 10, the first entry with serial 10 is kept and its
canonical serial is not in the ignore set. -/
theorem C4_extract_ignore_witness :
    bigIntText16 (⟨10, 0⟩ : RevEntry).serial ∉ [['b']] :=
  (C4_extract_ignore_and_first_occurrence [['b']]
    [some ⟨1, [⟨10, 0⟩, ⟨11, 1⟩, ⟨10, 2⟩]⟩]).2.1 ⟨10, 0⟩ (by decide)

/-- Models the CRL number determination in cmdCreate (the create command):
an explicitly supplied number is used verbatim; otherwise -1 (the
no-valid-number sentinel returned by the extractor) resolves to 1 and any
other extracted value is incremented. -/
def resolveCRLNumber (explicit : Option Int) (extracted : Int) : Int :=
  match explicit with
  | some n => n
  | none => if extracted = -1 then 1 else extracted + 1

/-- Specification-side resolution: the explicit number wins; otherwise 1 when
no prior CRL yields a valid (non-negative) number, otherwise the maximum
prior number plus one. The fold with seed -1 equals the true maximum
whenever some number is non-negative, which is the only case it is used in. -/
def specResolved (explicit : Option Int) (nums : List Int) : Int :=
  match explicit with
  | some n => n
  | none => if nums.all (fun n => n < 0) then 1 else nums.foldl max (-1) + 1

theorem foldl_if_eq_foldl_max (num : Int) (nums : List Int) :
    nums.foldl (fun a n => if n > a then n else a) num = nums.foldl max num := by
  induction nums generalizing num with
  | nil => rfl
  | cons a t ih =>
    simp only [List.foldl_cons]
    have hstep : (if a > num then a else num) = max num a := by
      rw [max_def]
      split_ifs <;> omega
    rw [hstep, ih]

theorem foldl_max_all_neg (nums : List Int) (h : ∀ n ∈ nums, n < 0) :
    nums.foldl max (-1) = -1 := by
  induction nums with
  | nil => rfl
  | cons a t ih =>
    simp only [List.foldl_cons]
    have ha : a < 0 := h a (List.mem_cons_self _ _)
    have hmax : max (-1 : Int) a = -1 := by omega
    rw [hmax]
    exact ih (fun n hn => h n (List.mem_cons_of_mem _ hn))

theorem foldl_max_ge_elem (i : Int) (nums : List Int) :
    ∀ n ∈ nums, n ≤ nums.foldl max i := by
  induction nums generalizing i with
  | nil => simp
  | cons a t ih =>
    intro n hn
    simp only [List.foldl_cons]
    rcases List.mem_cons.mp hn with h1 | h2
    · subst h1
      calc n ≤ max i n := by omega
        _ ≤ t.foldl max (max i n) := by
          clear ih hn
          induction t generalizing i n with
          | nil => simp
          | cons b t2 ih2 =>
            simp only [List.foldl_cons]
            calc max i n ≤ max (max i n) b := by omega
              _ ≤ t2.foldl max (max (max i n) b) := by
                have := ih2 (max i n) b
                omega
    · exact ih (max i a) n h2

/-- C5: sequence number resolution. The number used by the build is the
explicit number when given; otherwise 1 when no prior CRL yields a valid
(non-negative) number; otherwise the maximum prior number plus one. Concrete
cases: priors 3, 5, 2 resolve to 5 and the build without an explicit number
uses 6; with no priors the first build uses 1. -/
theorem C5_sequence_number_resolution :
    (∀ (explicit : Option Int) (ignore : List (List Char))
        (sources : List (Option ParsedCRL)),
      resolveCRLNumber explicit (ExtractRevocationEntries ignore sources).1 =
        specResolved explicit (crlNumbers sources)) ∧
    (ExtractRevocationEntries [] [some ⟨3, []⟩, some ⟨5, []⟩, some ⟨2, []⟩]).1 = 5 ∧
    resolveCRLNumber none
      (ExtractRevocationEntries [] [some ⟨3, []⟩, some ⟨5, []⟩, some ⟨2, []⟩]).1 = 6 ∧
    resolveCRLNumber none (ExtractRevocationEntries [] []).1 = 1 := by
  refine ⟨?_, by decide, by decide, by decide⟩
  intro explicit ignore sources
  have hfst : (ExtractRevocationEntries ignore sources).1 =
      (crlNumbers sources).foldl max (-1) := by
    rw [ExtractRevocationEntries, extractGo_spec]
    simp only
    exact foldl_if_eq_foldl_max (-1) (crlNumbers sources)
  rw [hfst]
  cases explicit with
  | some n => rfl
  | none =>
    simp only [resolveCRLNumber, specResolved]
    by_cases hall : ∀ n ∈ crlNumbers sources, n < 0
    · have hb : (crlNumbers sources).all (fun n => decide (n < 0)) = true := by
        rw [List.all_eq_true]
        intro n hn
        exact decide_eq_true (hall n hn)
      rw [if_pos (foldl_max_all_neg _ hall), if_pos hb]
    · push_neg at hall
      rcases hall with ⟨n, hn, hge⟩
      have hfold : ¬ (crlNumbers sources).foldl max (-1) = -1 := by
        have := foldl_max_ge_elem (-1) (crlNumbers sources) n hn
        omega
      have hb : ¬ (crlNumbers sources).all (fun n => decide (n < 0)) = true := by
        rw [List.all_eq_true]
        intro hcon
        have := of_decide_eq_true (hcon n hn)
        omega
      rw [if_neg hfold, if_neg hb]

/-! ## The serial registry (claims C6, C7, C10) -/

/-- The Latin-1 fragment of the Go function unicode.IsSpace, which is what
strings.TrimSpace strips; code points above 255 with the White_Space property
are not modelled. -/
def goIsSpace (c : Char) : Bool :=
  c.toNat == 9 || c.toNat == 10 || c.toNat == 11 || c.toNat == 12 || c.toNat == 13 ||
    c.toNat == 32 || c.toNat == 133 || c.toNat == 160

/-- The ASCII fragment of the Go function strings.ToLower on one character. -/
def toLowerChar (c : Char) : Char :=
  if 65 ≤ c.toNat ∧ c.toNat ≤ 90 then Char.ofNat (c.toNat + 32) else c

def goToLower (l : List Char) : List Char := l.map toLowerChar

/-- Models strings.TrimSpace: strips leading and trailing white space. -/
def goTrimSpace (l : List Char) : List Char :=
  ((l.dropWhile goIsSpace).reverse.dropWhile goIsSpace).reverse

/-- Models strings.TrimPrefix with the prefix 0x: the first two characters
are removed exactly when they are 0x. -/
def strip0x (l : List Char) : List Char :=
  if l.take 2 = ['0', 'x'] then l.drop 2 else l

/-- Value of one hexadecimal digit character, upper or lower case. -/
def hexDigitVal (c : Char) : Option Nat :=
  if 48 ≤ c.toNat ∧ c.toNat ≤ 57 then some (c.toNat - 48)
  else if 97 ≤ c.toNat ∧ c.toNat ≤ 102 then some (c.toNat - 87)
  else if 65 ≤ c.toNat ∧ c.toNat ≤ 70 then some (c.toNat - 55)
  else none

def hexDigitsValAux : Nat → List Char → Option Nat
  | acc, [] => some acc
  | acc, c :: rest =>
    match hexDigitVal c with
    | some d => hexDigitsValAux (acc * 16 + d) rest
    | none => none

/-- Models the SetString method of big.Int with base 16: an optional sign
followed by a nonempty run of hexadecimal digits; the whole string must
consist of such characters. Returns the parsed value, none on failure. -/
def goSetStringHex : List Char → Option Int
  | [] => none
  | c :: rest =>
    if c = '+' then
      if rest.isEmpty then none else (hexDigitsValAux 0 rest).map Int.ofNat
    else if c = '-' then
      if rest.isEmpty then none else (hexDigitsValAux 0 rest).map (fun v => -(Int.ofNat v))
    else (hexDigitsValAux 0 (c :: rest)).map Int.ofNat

/-- Whether a string parses as hexadecimal (the ok flag of SetString). -/
def hexValid (l : List Char) : Bool := (goSetStringHex l).isSome

/-- Per-line processing of ReadSerialNumbersFromFile in pkg/util: trim and
lower-case the line, skip it when empty, strip an optional 0x prefix, keep
it exactly when it parses as hexadecimal (a malformed line is skipped with a
warning and never aborts the run). -/
def processLine (l : List Char) : Option (List Char) :=
  let l1 := goToLower (goTrimSpace l)
  if l1.isEmpty then none
  else
    let l2 := strip0x l1
    if hexValid l2 then some l2 else none

/-- The deduplication pass of ReadSerialNumbersFromFile: a seen set
accumulates serials, duplicates are dropped, first occurrences kept. -/
def dedupGo : List (List Char) → List (List Char) → List (List Char)
  | _, [] => []
  | seen, s :: rest => if s ∈ seen then dedupGo seen rest else s :: dedupGo (s :: seen) rest

/-- Models ReadSerialNumbersFromFile in pkg/util, applied to the lines
obtained by splitting the file contents on newlines. -/
def ReadSerialNumbersFromLines (lines : List (List Char)) : List (List Char) :=
  dedupGo [] (lines.filterMap processLine)

/-- Specification-side first-occurrence deduplication: keep the head, remove
its later duplicates, recurse. -/
def dedupSpec : List (List Char) → List (List Char)
  | [] => []
  | x :: xs => x :: dedupSpec (xs.filter (fun y => y ≠ x))
termination_by l => l.length
decreasing_by
  have h := List.length_filter_le (fun y => y ≠ x) xs
  simp only [List.length_cons]
  omega

/-- C10: serial matching is by exact string, not numeric value. The registry
keeps the ignore line 0aa11 verbatim (leading zero preserved), the extractor
keys entries by the Text base-16 form aa11 without leading zeros, and hence
the prior-CRL entry with the numerically identical serial 43537 (hex aa11)
is not filtered and still appears in the output. -/
theorem C10_leading_zero_string_matching :
    ReadSerialNumbersFromLines [['0', 'a', 'a', '1', '1']] = [['0', 'a', 'a', '1', '1']] ∧
    goSetStringHex ['0', 'a', 'a', '1', '1'] = some 43537 ∧
    bigIntText16 43537 = ['a', 'a', '1', '1'] ∧
    (ExtractRevocationEntries [['0', 'a', 'a', '1', '1']]
      [some ⟨2, [⟨43537, 7⟩]⟩]).2 = [⟨43537, 7⟩] := by
  refine ⟨by decide, by decide, by decide, by decide⟩

theorem dedupGo_eq_dedupSpec_filter (l seen : List (List Char)) :
    dedupGo seen l = dedupSpec (l.filter (fun x => x ∉ seen)) := by
  induction l generalizing seen with
  | nil => simp [dedupGo, dedupSpec]
  | cons x xs ih =>
    simp only [dedupGo, List.filter_cons]
    by_cases hm : x ∈ seen
    · rw [if_pos hm]
      have hd : (decide (x ∉ seen)) = false := by simp [hm]
      rw [hd]
      simp only [Bool.false_eq_true, if_false]
      exact ih seen
    · rw [if_neg hm]
      have hd : (decide (x ∉ seen)) = true := by simp [hm]
      rw [hd]
      simp only [if_true]
      rw [dedupSpec, ih (x :: seen)]
      have hff : (xs.filter (fun y => y ∉ seen)).filter (fun y => y ≠ x) =
          xs.filter (fun y => y ∉ x :: seen) := by
        rw [List.filter_filter]
        apply List.filter_congr
        intro a _
        by_cases h1 : a = x <;> by_cases h2 : a ∈ seen <;>
          simp [h1, h2, List.mem_cons]
      rw [hff]

theorem mem_dedupSpec (x : List Char) (l : List (List Char)) :
    x ∈ dedupSpec l ↔ x ∈ l := by
  induction l using dedupSpec.induct with
  | case1 => simp [dedupSpec]
  | case2 y ys ih =>
    rw [dedupSpec]
    simp only [List.mem_cons]
    rw [ih]
    by_cases hxy : x = y
    · simp [hxy]
    · simp only [hxy, false_or]
      rw [List.mem_filter]
      simp [hxy]

theorem nodup_dedupSpec (l : List (List Char)) : (dedupSpec l).Nodup := by
  induction l using dedupSpec.induct with
  | case1 => simp [dedupSpec]
  | case2 y ys ih =>
    rw [dedupSpec]
    refine List.nodup_cons.mpr ⟨?_, ih⟩
    intro hcon
    have := (mem_dedupSpec y _).mp hcon
    rw [List.mem_filter] at this
    simp at this

theorem dedupSpec_of_nodup (l : List (List Char)) (h : l.Nodup) : dedupSpec l = l := by
  induction l using dedupSpec.induct with
  | case1 => rw [dedupSpec]
  | case2 y ys ih =>
    rw [dedupSpec]
    rcases List.nodup_cons.mp h with ⟨hy, hys⟩
    have hfe : ys.filter (fun z => z ≠ y) = ys := by
      apply List.filter_eq_self.mpr
      intro a ha
      simp only [ne_eq, decide_eq_true_eq]
      intro hcon
      rw [hcon] at ha
      exact hy ha
    rw [hfe] at ih ⊢
    rw [ih hys]

/-- C6: the Serial Registry normalizes each line with processLine (trim,
lower-case, optional 0x strip, skip when empty or not hexadecimal) and
returns the survivors in first-seen order with exact duplicates removed; the
include list AA11, aa11, 0xaa11 yields exactly the single entry aa11. -/
theorem C6_serial_registry_parse :
    (∀ lines : List (List Char),
      ReadSerialNumbersFromLines lines = dedupSpec (lines.filterMap processLine) ∧
      (ReadSerialNumbersFromLines lines).Nodup) ∧
    ReadSerialNumbersFromLines
      [['A', 'A', '1', '1'], ['a', 'a', '1', '1'], ['0', 'x', 'a', 'a', '1', '1']] =
      [['a', 'a', '1', '1']] := by
  refine ⟨?_, by decide⟩
  intro lines
  have hmain : ReadSerialNumbersFromLines lines =
      dedupSpec (lines.filterMap processLine) := by
    rw [ReadSerialNumbersFromLines, dedupGo_eq_dedupSpec_filter]
    have : (lines.filterMap processLine).filter (fun x => x ∉ ([] : List (List Char))) =
        lines.filterMap processLine := by
      apply List.filter_eq_self.mpr
      intro a _
      simp
    rw [this]
  exact ⟨hmain, hmain ▸ nodup_dedupSpec _⟩

theorem char_toNat_ofNat (n : Nat) (h : n < 55296) : (Char.ofNat n).toNat = n := by
  unfold Char.ofNat
  rw [dif_pos (by constructor; omega)]
  simp [Char.toNat, Char.ofNatAux, UInt32.toNat]

theorem toLowerChar_idem (c : Char) : toLowerChar (toLowerChar c) = toLowerChar c := by
  by_cases h : 65 ≤ c.toNat ∧ c.toNat ≤ 90
  · have hin : toLowerChar c = Char.ofNat (c.toNat + 32) := by
      rw [toLowerChar, if_pos h]
    have hto : (Char.ofNat (c.toNat + 32)).toNat = c.toNat + 32 :=
      char_toNat_ofNat _ (by omega)
    rw [hin, toLowerChar, hto, if_neg (by omega)]
  · have hin : toLowerChar c = c := by
      rw [toLowerChar, if_neg h]
    rw [hin, hin]

theorem toLowerChar_fixed_of_mem (x : List Char) (c : Char) (hc : c ∈ goToLower x) :
    toLowerChar c = c := by
  rcases List.mem_map.mp hc with ⟨d, _, hd⟩
  rw [← hd]
  exact toLowerChar_idem d

theorem goToLower_eq_self (s : List Char) (h : ∀ c ∈ s, toLowerChar c = c) :
    goToLower s = s := by
  induction s with
  | nil => rfl
  | cons c rest ih =>
    rw [goToLower, List.map_cons, h c (List.mem_cons_self _ _)]
    rw [goToLower] at ih
    rw [ih (fun d hd => h d (List.mem_cons_of_mem _ hd))]

theorem mem_strip0x (l : List Char) (c : Char) (hc : c ∈ strip0x l) : c ∈ l := by
  rw [strip0x] at hc
  by_cases h2 : l.take 2 = ['0', 'x']
  · rw [if_pos h2] at hc
    exact List.mem_of_mem_drop hc
  · rwa [if_neg h2] at hc

theorem dropWhile_eq_self_of_not (p : Char → Bool) (l : List Char)
    (h : ∀ c ∈ l, p c = false) : l.dropWhile p = l := by
  cases l with
  | nil => rfl
  | cons a t =>
    rw [List.dropWhile_cons, h a (List.mem_cons_self _ _)]
    simp

theorem goTrimSpace_eq_self (l : List Char) (h : ∀ c ∈ l, goIsSpace c = false) :
    goTrimSpace l = l := by
  rw [goTrimSpace, dropWhile_eq_self_of_not _ _ h]
  rw [dropWhile_eq_self_of_not _ _ (fun c hc => h c (List.mem_reverse.mp hc))]
  exact List.reverse_reverse l

theorem map_isSome {α β : Type} (f : α → β) (o : Option α) :
    (o.map f).isSome = o.isSome := by
  cases o <;> rfl

theorem hexDigitsValAux_chars (l : List Char) (acc : Nat)
    (h : (hexDigitsValAux acc l).isSome = true) :
    ∀ c ∈ l, (hexDigitVal c).isSome = true := by
  induction l generalizing acc with
  | nil => simp
  | cons c rest ih =>
    rw [hexDigitsValAux] at h
    cases hd : hexDigitVal c with
    | none =>
      rw [hd] at h
      simp at h
    | some d =>
      rw [hd] at h
      intro x hx
      rcases List.mem_cons.mp hx with h1 | h2
      · rw [h1, hd]
        rfl
      · exact ih _ h x h2

theorem hexValid_chars (l : List Char) (h : hexValid l = true) :
    ∀ c ∈ l, c = '+' ∨ c = '-' ∨ (hexDigitVal c).isSome = true := by
  cases l with
  | nil => simp [hexValid, goSetStringHex] at h
  | cons c0 rest =>
    rw [hexValid, goSetStringHex] at h
    intro c hc
    by_cases h1 : c0 = '+'
    · rw [if_pos h1] at h
      by_cases h2 : rest.isEmpty
      · rw [if_pos h2] at h
        simp at h
      · rw [if_neg h2, map_isSome] at h
        rcases List.mem_cons.mp hc with hcc | hcm
        · exact Or.inl (hcc.trans h1)
        · exact Or.inr (Or.inr (hexDigitsValAux_chars rest 0 h c hcm))
    · rw [if_neg h1] at h
      by_cases h3 : c0 = '-'
      · rw [if_pos h3] at h
        by_cases h2 : rest.isEmpty
        · rw [if_pos h2] at h
          simp at h
        · rw [if_neg h2, map_isSome] at h
          rcases List.mem_cons.mp hc with hcc | hcm
          · exact Or.inr (Or.inl (hcc.trans h3))
          · exact Or.inr (Or.inr (hexDigitsValAux_chars rest 0 h c hcm))
      · rw [if_neg h3, map_isSome] at h
        exact Or.inr (Or.inr (hexDigitsValAux_chars (c0 :: rest) 0 h c hc))

theorem hexDigitVal_range (c : Char) (h : (hexDigitVal c).isSome = true) :
    48 ≤ c.toNat ∧ c.toNat ≤ 102 := by
  rw [hexDigitVal] at h
  split_ifs at h with ha hb hc2
  · omega
  · omega
  · omega
  · simp at h

theorem hexValid_no_space (l : List Char) (h : hexValid l = true) :
    ∀ c ∈ l, goIsSpace c = false := by
  intro c hc
  rcases hexValid_chars l h c hc with h1 | h1 | h1
  · rw [h1]
    decide
  · rw [h1]
    decide
  · have := hexDigitVal_range c h1
    simp only [goIsSpace, Bool.or_eq_false_iff, beq_eq_false_iff_ne, ne_eq]
    omega

theorem hexValid_ne_nil (l : List Char) (h : hexValid l = true) : l ≠ [] := by
  intro hcon
  rw [hcon] at h
  simp [hexValid, goSetStringHex] at h

theorem hexValid_strip0x_eq_self (l : List Char) (h : hexValid l = true) :
    strip0x l = l := by
  rw [strip0x]
  by_cases h2 : l.take 2 = ['0', 'x']
  · exfalso
    cases l with
    | nil => simp at h2
    | cons c0 rest =>
      cases rest with
      | nil => simp [List.take] at h2
      | cons c1 rest2 =>
        simp only [List.take, List.cons.injEq] at h2
        rcases h2 with ⟨hc0, hc1, -⟩
        have hx := hexValid_chars _ h c1 (by simp [hc1])
        rw [hc1] at hx
        rcases hx with h1 | h1 | h1
        · exact absurd h1 (by decide)
        · exact absurd h1 (by decide)
        · exact absurd h1 (by decide)
  · rw [if_neg h2]

theorem processLine_fixed (l s : List Char) (h : processLine l = some s) :
    processLine s = some s := by
  rw [processLine] at h
  simp only at h
  by_cases he : (goToLower (goTrimSpace l)).isEmpty
  · rw [if_pos he] at h
    simp at h
  · rw [if_neg he] at h
    by_cases hv : hexValid (strip0x (goToLower (goTrimSpace l)))
    · rw [if_pos hv] at h
      have hs : s = strip0x (goToLower (goTrimSpace l)) := (Option.some.inj h).symm
      have hvs : hexValid s = true := by
        rw [hs]
        exact hv
      have hnospace : ∀ c ∈ s, goIsSpace c = false := hexValid_no_space s hvs
      have htrim : goTrimSpace s = s := goTrimSpace_eq_self s hnospace
      have hlower : goToLower s = s := by
        apply goToLower_eq_self
        intro c hc
        apply toLowerChar_fixed_of_mem (goTrimSpace l)
        rw [hs] at hc
        exact mem_strip0x _ _ hc
      have hstrip : strip0x s = s := hexValid_strip0x_eq_self s hvs
      have hne : s ≠ [] := hexValid_ne_nil s hvs
      rw [processLine]
      simp only [htrim, hlower]
      rw [if_neg (by simp [hne]), hstrip, if_pos hvs]
    · rw [if_neg hv] at h
      simp at h

theorem filterMap_processLine_self (l : List (List Char))
    (h : ∀ s ∈ l, processLine s = some s) : l.filterMap processLine = l := by
  induction l with
  | nil => rfl
  | cons s rest ih =>
    rw [List.filterMap_cons, h s (List.mem_cons_self _ _)]
    rw [ih (fun x hx => h x (List.mem_cons_of_mem _ hx))]

/-- C7: the Serial Registry parse is idempotent: applying the normalize,
filter and deduplicate pass to its own output returns that output
unchanged. -/
theorem C7_serial_registry_idempotent (lines : List (List Char)) :
    ReadSerialNumbersFromLines (ReadSerialNumbersFromLines lines) =
      ReadSerialNumbersFromLines lines := by
  have hout : ReadSerialNumbersFromLines lines =
      dedupSpec (lines.filterMap processLine) := by
    rw [ReadSerialNumbersFromLines, dedupGo_eq_dedupSpec_filter]
    have hfe : (lines.filterMap processLine).filter
        (fun x => x ∉ ([] : List (List Char))) = lines.filterMap processLine := by
      apply List.filter_eq_self.mpr
      intro a _
      simp
    rw [hfe]
  have hfix : ∀ s ∈ ReadSerialNumbersFromLines lines, processLine s = some s := by
    intro s hs
    rw [hout] at hs
    have hsl := (mem_dedupSpec s _).mp hs
    rcases List.mem_filterMap.mp hsl with ⟨l0, _, hl0⟩
    exact processLine_fixed l0 s hl0
  have hnodup : (ReadSerialNumbersFromLines lines).Nodup := by
    rw [hout]
    exact nodup_dedupSpec _
  conv_lhs => rw [ReadSerialNumbersFromLines]
  rw [filterMap_processLine_self _ hfix, dedupGo_eq_dedupSpec_filter]
  have hfe : (ReadSerialNumbersFromLines lines).filter
      (fun x => x ∉ ([] : List (List Char))) = ReadSerialNumbersFromLines lines := by
    apply List.filter_eq_self.mpr
    intro a _
    simp
  rw [hfe]
  exact dedupSpec_of_nodup _ hnodup

/-! ## Signature file reading (claim C9)

ReadSignatureFile in pkg/util/certs.go feeds the file bytes to the standard
base64 decoder and returns the decoded bytes on success, the raw bytes
otherwise. The decoder is modelled from the Go package encoding/base64
(StdEncoding): the standard alphabet, mandatory padding, carriage returns
and newlines ignored, padding allowed only in the final quantum. -/

/-- The standard base64 alphabet: index to code point. -/
def b64Char (n : Nat) : Nat :=
  if n < 26 then 65 + n
  else if n < 52 then 97 + (n - 26)
  else if n < 62 then 48 + (n - 52)
  else if n = 62 then 43
  else 47

/-- The standard base64 alphabet: code point to index. -/
def b64Index (c : Nat) : Option Nat :=
  if 65 ≤ c ∧ c ≤ 90 then some (c - 65)
  else if 97 ≤ c ∧ c ≤ 122 then some (26 + (c - 97))
  else if 48 ≤ c ∧ c ≤ 57 then some (52 + (c - 48))
  else if c = 43 then some 62
  else if c = 47 then some 63
  else none

/-- Standard base64 encoding of a byte string (the reference encoder the
externally produced signature files use; 61 is the padding character). -/
def b64Encode : List Nat → List Nat
  | b0 :: b1 :: b2 :: rest =>
    b64Char (b0 / 4) :: b64Char ((b0 % 4) * 16 + b1 / 16) ::
      b64Char ((b1 % 16) * 4 + b2 / 64) :: b64Char (b2 % 64) :: b64Encode rest
  | [b0, b1] =>
    [b64Char (b0 / 4), b64Char ((b0 % 4) * 16 + b1 / 16), b64Char ((b1 % 16) * 4), 61]
  | [b0] => [b64Char (b0 / 4), b64Char ((b0 % 4) * 16), 61, 61]
  | [] => []

/-- Decoding of newline-free input in quanta of four characters, with the
padding rules of the Go StdEncoding decoder: padding only in the final
quantum, two or one padding characters yielding one or two bytes. -/
def b64DecodeGroups : List Nat → Option (List Nat)
  | [] => some []
  | c0 :: c1 :: c2 :: c3 :: rest =>
    match b64Index c0, b64Index c1 with
    | some s0, some s1 =>
      if c2 = 61 then
        if c3 = 61 ∧ rest = [] then some [s0 * 4 + s1 / 16] else none
      else
        match b64Index c2 with
        | some s2 =>
          if c3 = 61 then
            if rest = [] then some [s0 * 4 + s1 / 16, (s1 % 16) * 16 + s2 / 4] else none
          else
            match b64Index c3 with
            | some s3 =>
              (b64DecodeGroups rest).map
                (fun tl => (s0 * 4 + s1 / 16) :: ((s1 % 16) * 16 + s2 / 4) ::
                  ((s2 % 4) * 64 + s3) :: tl)
            | none => none
        | none => none
    | _, _ => none
  | _ => none

/-- Models base64.StdEncoding.Decode: carriage returns and newlines are
ignored anywhere, then the input is decoded in quanta of four. -/
def b64Decode (content : List Nat) : Option (List Nat) :=
  b64DecodeGroups (content.filter (fun c => ¬ (c = 10 ∨ c = 13)))

/-- Models ReadSignatureFile in pkg/util/certs.go, applied to the file bytes
after the optional PEM unwrapping done by TryParsePEM: when the content
decodes as standard base64 the decoded bytes are returned, otherwise the raw
bytes are returned unchanged. -/
def ReadSignatureFile (content : List Nat) : List Nat :=
  match b64Decode content with
  | some d => d
  | none => content

theorem b64Index_b64Char : ∀ n, n < 64 → b64Index (b64Char n) = some n := by decide

theorem b64Char_ge : ∀ n, n < 64 → 43 ≤ b64Char n := by decide

theorem b64Char_ne_61 : ∀ n, n < 64 → ¬ b64Char n = 61 := by decide

theorem b64Encode_chars (bs : List Nat) (h : ∀ b ∈ bs, b < 256) :
    ∀ c ∈ b64Encode bs, 43 ≤ c := by
  induction bs using b64Encode.induct with
  | case1 b0 b1 b2 rest ih =>
    have hb0 := h b0 (by simp)
    have hb1 := h b1 (by simp)
    have hb2 := h b2 (by simp)
    rw [b64Encode]
    intro c hc
    simp only [List.mem_cons] at hc
    rcases hc with rfl | rfl | rfl | rfl | hm
    · exact b64Char_ge _ (by omega)
    · exact b64Char_ge _ (by omega)
    · exact b64Char_ge _ (by omega)
    · exact b64Char_ge _ (by omega)
    · exact ih (fun b hb => h b (by simp [hb])) c hm
  | case2 b0 b1 =>
    have hb0 := h b0 (by simp)
    have hb1 := h b1 (by simp)
    rw [b64Encode]
    intro c hc
    simp only [List.mem_cons, List.not_mem_nil, or_false] at hc
    rcases hc with rfl | rfl | rfl | rfl
    · exact b64Char_ge _ (by omega)
    · exact b64Char_ge _ (by omega)
    · exact b64Char_ge _ (by omega)
    · omega
  | case3 b0 =>
    have hb0 := h b0 (by simp)
    rw [b64Encode]
    intro c hc
    simp only [List.mem_cons, List.not_mem_nil, or_false] at hc
    rcases hc with rfl | rfl | rfl | rfl
    · exact b64Char_ge _ (by omega)
    · exact b64Char_ge _ (by omega)
    · omega
    · omega
  | case4 =>
    rw [b64Encode]
    intro c hc
    simp at hc

theorem b64Encode_filter (bs : List Nat) (h : ∀ b ∈ bs, b < 256) :
    (b64Encode bs).filter (fun c => ¬ (c = 10 ∨ c = 13)) = b64Encode bs := by
  apply List.filter_eq_self.mpr
  intro a ha
  have := b64Encode_chars bs h a ha
  simp only [decide_eq_true_eq]
  omega

theorem b64DecodeGroups_b64Encode (bs : List Nat) (h : ∀ b ∈ bs, b < 256) :
    b64DecodeGroups (b64Encode bs) = some bs := by
  induction bs using b64Encode.induct with
  | case1 b0 b1 b2 rest ih =>
    have hb0 := h b0 (by simp)
    have hb1 := h b1 (by simp)
    have hb2 := h b2 (by simp)
    rw [b64Encode]
    simp only [b64DecodeGroups, b64Index_b64Char (b0 / 4) (by omega),
      b64Index_b64Char (b0 % 4 * 16 + b1 / 16) (by omega)]
    rw [if_neg (b64Char_ne_61 _ (by omega))]
    simp only [b64Index_b64Char (b1 % 16 * 4 + b2 / 64) (by omega)]
    rw [if_neg (b64Char_ne_61 _ (by omega))]
    simp only [b64Index_b64Char (b2 % 64) (by omega)]
    rw [ih (fun b hb => h b (by simp [hb]))]
    simp only [Option.map_some', Option.some.injEq, List.cons.injEq,
      eq_self_iff_true, and_true]
    omega
  | case2 b0 b1 =>
    have hb0 := h b0 (by simp)
    have hb1 := h b1 (by simp)
    rw [b64Encode]
    simp only [b64DecodeGroups, b64Index_b64Char (b0 / 4) (by omega),
      b64Index_b64Char (b0 % 4 * 16 + b1 / 16) (by omega)]
    rw [if_neg (b64Char_ne_61 _ (by omega))]
    simp only [b64Index_b64Char (b1 % 16 * 4) (by omega)]
    simp only [if_true, Option.some.injEq, List.cons.injEq, eq_self_iff_true, and_true]
    omega
  | case3 b0 =>
    have hb0 := h b0 (by simp)
    rw [b64Encode]
    simp only [b64DecodeGroups, b64Index_b64Char (b0 / 4) (by omega),
      b64Index_b64Char (b0 % 4 * 16) (by omega)]
    simp only [if_true, and_self, Option.some.injEq, List.cons.injEq,
      eq_self_iff_true, and_true]
    omega
  | case4 =>
    rw [b64Encode, b64DecodeGroups]

theorem b64Decode_b64Encode (bs : List Nat) (h : ∀ b ∈ bs, b < 256) :
    b64Decode (b64Encode bs) = some bs := by
  rw [b64Decode, b64Encode_filter bs h, b64DecodeGroups_b64Encode bs h]

/-- C9: ReadSignatureFile accepts both encodings: base64-encoded content is
decoded transparently (decoding the standard encoding of any byte string
returns that byte string), and content that is not valid base64 is returned
as raw bytes unchanged. -/
theorem C9_read_signature_file :
    (∀ bs : List Nat, (∀ b ∈ bs, b < 256) → ReadSignatureFile (b64Encode bs) = bs) ∧
    (∀ content : List Nat, b64Decode content = none →
      ReadSignatureFile content = content) := by
  constructor
  · intro bs h
    rw [ReadSignatureFile, b64Decode_b64Encode bs h]
  · intro content h
    rw [ReadSignatureFile, h]

/-- Witness for C9 at a concrete input. -/
theorem C9_read_signature_file_witness :
    ReadSignatureFile (b64Encode [1, 2, 3]) = [1, 2, 3] ∧
    ReadSignatureFile [1] = [1] :=
  ⟨C9_read_signature_file.1 [1, 2, 3] (by decide),
   C9_read_signature_file.2 [1] (by decide)⟩
